import Mathlib

/-!
Shallow embedding of `supermariopy/denseposelib.py` and proofs about it.

A label map (`np.ndarray` of shape `[H, W]`, integer dtype) is embedded as a
list of rows, each row a list of `Int` pixel labels.  Rational numbers stand
for the float IoU values (all arithmetic the code performs on them is exact).
-/

/-- A 2-D label map: a list of rows of integer pixel labels. -/
abbrev Mat := List (List Int)

/-- `np.zeros_like(part_map)`: an all-zero map of the same shape. -/
def zerosLike (m : Mat) : Mat :=
  m.map (fun row => row.map (fun _ => (0 : Int)))

/-- Pixel access `m[i, j]`, defaulting to 0 out of bounds. -/
def getPixel (m : Mat) (i j : Nat) : Int :=
  (m.getD i []).getD j 0

/-- One iteration of the loop in `remap_parts`:
`mask = part_map == old_id; new_part_map[mask] = new_id`. -/
def remapStep (part_map acc : Mat) (e : Int × Int) : Mat :=
  List.zipWith
    (fun mrow arow =>
      List.zipWith (fun a b => if a = e.1 then e.2 else b) mrow arow)
    part_map acc

/-- `remap_parts(part_map, remap_dict)` from denseposelib.py: start from
`np.zeros_like(part_map)` and, for each `(old_id, new_id)` item of the dict,
overwrite the pixels where `part_map == old_id` with `new_id`.  The dict is
embedded as an association list with distinct keys. -/
def remap_parts (part_map : Mat) (remap_dict : List (Int × Int)) : Mat :=
  remap_dict.foldl (fun acc e => remapStep part_map acc e) (zerosLike part_map)

/-- Association-list lookup (first match), used to state what `remap_parts`
computes per pixel. -/
def alookup (v : Int) : List (Int × Int) → Option Int
  | [] => none
  | e :: rest => if e.1 = v then some e.2 else alookup v rest

/-! ### Basic list helpers -/

theorem zipWith_get? {α β γ : Type} (f : α → β → γ) (l1 : List α) (l2 : List β)
    (i : Nat) :
    (List.zipWith f l1 l2).get? i =
      match l1.get? i, l2.get? i with
      | some a, some b => some (f a b)
      | _, _ => none := by
  induction l1 generalizing l2 i with
  | nil => cases l2 <;> cases i <;> simp [List.zipWith]
  | cons a t ih =>
    cases l2 with
    | nil => cases i <;> simp [List.zipWith]
    | cons b t2 =>
      cases i with
      | zero => simp [List.zipWith]
      | succ n => simpa [List.zipWith] using ih t2 n

theorem zipWith_zipWith_left {α β γ δ : Type} (f : α → γ → δ) (g : α → β → γ)
    (l1 : List α) (l2 : List β) :
    List.zipWith f l1 (List.zipWith g l1 l2) =
      List.zipWith (fun a b => f a (g a b)) l1 l2 := by
  induction l1 generalizing l2 with
  | nil => simp
  | cons a t ih =>
    cases l2 with
    | nil => simp
    | cons b t2 => simp [List.zipWith, ih]

theorem zipWith_self_map {α β γ : Type} (f : α → β → γ) (g : α → β)
    (l : List α) :
    List.zipWith f l (l.map g) = l.map (fun a => f a (g a)) := by
  induction l with
  | nil => rfl
  | cons a t ih => simp [List.zipWith, ih]

/-- Folding the per-pixel overwrite loop: the final value of one pixel that
started at `b` and has source label `a`. -/
def pixelFold (a : Int) (b : Int) (d : List (Int × Int)) : Int :=
  d.foldl (fun cur e => if a = e.1 then e.2 else cur) b

theorem pixelFold_of_not_mem_keys (a b : Int) (d : List (Int × Int))
    (h : a ∉ d.map Prod.fst) : pixelFold a b d = b := by
  induction d generalizing b with
  | nil => rfl
  | cons e rest ih =>
    simp only [List.map_cons, List.mem_cons] at h
    push_neg at h
    have hne : a ≠ e.1 := h.1
    simp [pixelFold, List.foldl_cons, if_neg hne]
    exact ih b h.2

theorem pixelFold_eq_alookup (a b : Int) (d : List (Int × Int))
    (hnd : (d.map Prod.fst).Nodup) :
    pixelFold a b d = (alookup a d).getD b := by
  induction d generalizing b with
  | nil => rfl
  | cons e rest ih =>
    simp only [List.map_cons, List.nodup_cons] at hnd
    by_cases hk : a = e.1
    · have hnot : a ∉ rest.map Prod.fst := by
        rw [hk]; exact hnd.1
      simp [pixelFold, List.foldl_cons, if_pos hk, alookup, if_pos hk.symm]
      exact pixelFold_of_not_mem_keys a e.2 rest hnot
    · have hk' : e.1 ≠ a := fun h => hk h.symm
      simp [pixelFold, List.foldl_cons, if_neg hk, alookup, if_neg hk']
      exact ih b hnd.2

theorem zipWith_snd_of_length_eq {α β : Type} (l1 : List α) (l2 : List β)
    (h : l1.length = l2.length) :
    List.zipWith (fun _ b => b) l1 l2 = l2 := by
  induction l1 generalizing l2 with
  | nil => cases l2 with
    | nil => rfl
    | cons b t2 => simp at h
  | cons a t ih =>
    cases l2 with
    | nil => simp at h
    | cons b t2 =>
      simp only [List.length_cons, Nat.succ.injEq] at h
      simp [List.zipWith, ih t2 h]

theorem foldl_remapStep_eq_zipWith (d : List (Int × Int)) (m acc : Mat)
    (h : m.length = acc.length) :
    d.foldl (fun a e => remapStep m a e) acc =
      List.zipWith
        (fun mrow arow =>
          d.foldl
            (fun a2 e =>
              List.zipWith (fun a b => if a = e.1 then e.2 else b) mrow a2)
            arow)
        m acc := by
  induction d generalizing acc with
  | nil => simp [zipWith_snd_of_length_eq m acc h]
  | cons e rest ih =>
    have hlen : m.length = (remapStep m acc e).length := by
      simp [remapStep, List.length_zipWith, ← h]
    simp only [List.foldl_cons]
    rw [ih (remapStep m acc e) hlen]
    simp only [remapStep]
    rw [zipWith_zipWith_left]

theorem foldl_rowStep_eq_zipWith (d : List (Int × Int)) (mrow arow : List Int)
    (h : mrow.length = arow.length) :
    d.foldl
        (fun a2 e =>
          List.zipWith (fun a b => if a = e.1 then e.2 else b) mrow a2)
        arow =
      List.zipWith (fun a b => pixelFold a b d) mrow arow := by
  induction d generalizing arow with
  | nil => simp [pixelFold, zipWith_snd_of_length_eq mrow arow h]
  | cons e rest ih =>
    have hlen :
        mrow.length =
          (List.zipWith (fun a b => if a = e.1 then e.2 else b) mrow arow).length := by
      simp [List.length_zipWith, ← h]
    simp only [List.foldl_cons]
    rw [ih _ hlen, zipWith_zipWith_left]
    simp [pixelFold]

/-- Master characterization: `remap_parts` rewrites every pixel `a` to the
result of running the overwrite loop on that single pixel. -/
theorem remap_parts_eq_map (m : Mat) (d : List (Int × Int)) :
    remap_parts m d =
      m.map (fun row => row.map (fun a => pixelFold a 0 d)) := by
  unfold remap_parts
  rw [foldl_remapStep_eq_zipWith d m (zerosLike m) (by simp [zerosLike])]
  unfold zerosLike
  rw [zipWith_self_map]
  apply List.map_congr_left
  intro row _
  rw [foldl_rowStep_eq_zipWith d row (row.map fun _ => (0:Int)) (by simp)]
  rw [zipWith_self_map]

theorem getD_map_lt {α β : Type} (f : α → β) (l : List α) (i : Nat)
    (h : i < l.length) (d1 : β) (d2 : α) :
    (l.map f).getD i d1 = f (l.getD i d2) := by
  induction l generalizing i with
  | nil => simp at h
  | cons a t ih =>
    cases i with
    | zero => rfl
    | succ n =>
      simp only [List.length_cons] at h
      exact ih n (Nat.lt_of_succ_lt_succ h)

theorem getD_eq_default_of_le {α : Type} (l : List α) (d : α) (i : Nat)
    (h : l.length ≤ i) : l.getD i d = d := by
  induction l generalizing i with
  | nil => cases i <;> rfl
  | cons a t ih =>
    cases i with
    | zero => simp at h
    | succ n =>
      simp only [List.length_cons] at h
      exact ih n (Nat.le_of_succ_le_succ h)

theorem alookup_eq_none_iff (a : Int) (d : List (Int × Int)) :
    alookup a d = none ↔ a ∉ d.map Prod.fst := by
  induction d with
  | nil => simp [alookup]
  | cons e rest ih =>
    by_cases hk : e.1 = a
    · simp [alookup, if_pos hk, hk]
    · simp only [alookup, if_neg hk, List.map_cons, List.mem_cons]
      rw [ih]
      constructor
      · intro h hor
        rcases hor with h1 | h2
        · exact hk h1.symm
        · exact h h2
      · intro h h2
        exact h (Or.inr h2)

theorem mem_of_alookup_eq_some {a w : Int} {d : List (Int × Int)}
    (h : alookup a d = some w) : (a, w) ∈ d := by
  induction d with
  | nil => simp [alookup] at h
  | cons e rest ih =>
    by_cases hk : e.1 = a
    · simp only [alookup, if_pos hk, Option.some.injEq] at h
      have he : e = (a, w) := by
        cases e
        simp_all
      rw [he]
      exact List.mem_cons_self _ _
    · simp only [alookup, if_neg hk] at h
      exact List.mem_cons_of_mem _ (ih h)

theorem alookup_eq_some_of_mem {a w : Int} {d : List (Int × Int)}
    (hnd : (d.map Prod.fst).Nodup) (h : (a, w) ∈ d) : alookup a d = some w := by
  induction d with
  | nil => simp at h
  | cons e rest ih =>
    simp only [List.map_cons, List.nodup_cons] at hnd
    rcases List.mem_cons.mp h with h1 | h2
    · simp [alookup, ← h1]
    · have hk : e.1 ≠ a := by
        intro he
        apply hnd.1
        rw [he]
        exact List.mem_map.mpr ⟨(a, w), h2, rfl⟩
      simp only [alookup, if_neg hk]
      exact ih hnd.2 h2

theorem alookup_perm (a : Int) (d₁ d₂ : List (Int × Int))
    (hnd : (d₁.map Prod.fst).Nodup) (hp : d₁.Perm d₂) :
    alookup a d₁ = alookup a d₂ := by
  have hnd₂ : (d₂.map Prod.fst).Nodup := (hp.map Prod.fst).nodup_iff.mp hnd
  cases h : alookup a d₁ with
  | none =>
    symm
    rw [alookup_eq_none_iff] at h ⊢
    intro hmem
    exact h ((hp.map Prod.fst).mem_iff.mpr hmem)
  | some w =>
    exact (alookup_eq_some_of_mem hnd₂ (hp.mem_iff.mp (mem_of_alookup_eq_some h))).symm

/-- C1: for every label map and remap table with distinct old labels,
`remap_parts` returns a same-shaped map; every pixel whose original label has
an entry carries the mapped value, every pixel without an entry carries
background 0, and the empty table yields the all-background map. -/
theorem remap_parts_spec (m : Mat) (d : List (Int × Int))
    (hnd : (d.map Prod.fst).Nodup) :
    ((remap_parts m d).length = m.length ∧
      ∀ i, ((remap_parts m d).getD i []).length = (m.getD i []).length) ∧
    (∀ i j, i < m.length → j < (m.getD i []).length →
      getPixel (remap_parts m d) i j = (alookup (getPixel m i j) d).getD 0) ∧
    remap_parts m ([] : List (Int × Int)) = zerosLike m := by
  have hm := remap_parts_eq_map m d
  refine ⟨⟨by rw [hm]; simp, ?_⟩, ?_, rfl⟩
  · intro i
    by_cases hi : i < m.length
    · rw [hm, getD_map_lt _ m i hi [] []]
      simp
    · push_neg at hi
      rw [hm, getD_eq_default_of_le _ _ i (by simpa using hi),
        getD_eq_default_of_le _ _ i hi]
  · intro i j hi hj
    unfold getPixel
    rw [hm, getD_map_lt _ m i hi [] [], getD_map_lt _ _ j hj 0 0]
    exact pixelFold_eq_alookup _ 0 d hnd

theorem remap_parts_spec_witness :
    getPixel (remap_parts [[1, 2], [0, 1]] [(1, 10), (2, 20)]) 0 0 =
      (alookup (getPixel [[1, 2], [0, 1]] 0 0) [(1, 10), (2, 20)]).getD 0 :=
  (remap_parts_spec [[1, 2], [0, 1]] [(1, 10), (2, 20)] (by decide)).2.1 0 0
    (by decide) (by decide)

/-- C8: with distinct old labels, the output of `remap_parts` does not depend
on the order in which the table entries are applied. -/
theorem remap_parts_order_irrelevant (m : Mat) (d₁ d₂ : List (Int × Int))
    (hnd : (d₁.map Prod.fst).Nodup) (hp : d₁.Perm d₂) :
    remap_parts m d₁ = remap_parts m d₂ := by
  have hnd₂ : (d₂.map Prod.fst).Nodup := (hp.map Prod.fst).nodup_iff.mp hnd
  rw [remap_parts_eq_map, remap_parts_eq_map]
  apply List.map_congr_left
  intro row _
  apply List.map_congr_left
  intro a _
  rw [pixelFold_eq_alookup a 0 d₁ hnd, pixelFold_eq_alookup a 0 d₂ hnd₂,
    alookup_perm a d₁ d₂ hnd hp]

theorem remap_parts_order_irrelevant_witness :
    remap_parts [[1, 2], [0, 1]] [(1, 10), (2, 20)] =
      remap_parts [[1, 2], [0, 1]] [(2, 20), (1, 10)] :=
  remap_parts_order_irrelevant [[1, 2], [0, 1]] [(1, 10), (2, 20)]
    [(2, 20), (1, 10)] (by decide) (by decide)

/-! ### `np.unique` and `compute_iou` -/

/-- Insert into a strictly sorted list, skipping duplicates.  Building block
for `np.unique` (sorted distinct values). -/
def insertSorted (x : Int) : List Int → List Int
  | [] => [x]
  | y :: ys =>
      if x < y then x :: y :: ys
      else if x = y then y :: ys
      else y :: insertSorted x ys

/-- `np.unique(l)`: the sorted list of distinct values of `l`. -/
def npUnique (l : List Int) : List Int := l.foldr insertSorted []

theorem mem_insertSorted (v x : Int) (l : List Int) :
    v ∈ insertSorted x l ↔ v = x ∨ v ∈ l := by
  induction l with
  | nil => simp [insertSorted]
  | cons y ys ih =>
    by_cases h1 : x < y
    · simp [insertSorted, if_pos h1]
    · by_cases h2 : x = y
      · subst h2
        rw [show insertSorted x (x :: ys) = x :: ys from by
          simp [insertSorted, lt_irrefl]]
        simp only [List.mem_cons]
        tauto
      · simp only [insertSorted, if_neg h1, if_neg h2, List.mem_cons, ih]
        tauto

theorem pairwise_insertSorted (x : Int) (l : List Int)
    (h : l.Pairwise (· < ·)) : (insertSorted x l).Pairwise (· < ·) := by
  induction l with
  | nil => simp [insertSorted]
  | cons y ys ih =>
    rcases List.pairwise_cons.mp h with ⟨hy, hys⟩
    by_cases h1 : x < y
    · simp only [insertSorted, if_pos h1]
      refine List.pairwise_cons.mpr ⟨?_, h⟩
      intro z hz
      rcases List.mem_cons.mp hz with h2 | h2
      · exact h2 ▸ h1
      · exact h1.trans (hy z h2)
    · by_cases h2 : x = y
      · simpa [insertSorted, if_neg h1, if_pos h2] using h
      · have hyx : y < x := by omega
        simp only [insertSorted, if_neg h1, if_neg h2]
        refine List.pairwise_cons.mpr ⟨?_, ih hys⟩
        intro z hz
        rcases (mem_insertSorted z x ys).mp hz with h3 | h3
        · exact h3 ▸ hyx
        · exact hy z h3

theorem pairwise_npUnique (l : List Int) : (npUnique l).Pairwise (· < ·) := by
  induction l with
  | nil => simp [npUnique]
  | cons a t ih => exact pairwise_insertSorted a (npUnique t) ih

theorem nodup_npUnique (l : List Int) : (npUnique l).Nodup :=
  (pairwise_npUnique l).imp (fun h => ne_of_lt h)

theorem mem_npUnique (v : Int) (l : List Int) : v ∈ npUnique l ↔ v ∈ l := by
  induction l with
  | nil => simp [npUnique]
  | cons a t ih =>
    simp only [npUnique, List.foldr_cons, List.mem_cons]
    rw [mem_insertSorted]
    exact or_congr Iff.rfl ih

/-- `np.sum(np.logical_and(label == val, pred == val))`: the number of pixel
positions carrying `val` in both maps (maps given flattened). -/
def interCount (pred gt : List Int) (v : Int) : Nat :=
  (pred.zip gt).countP (fun p => decide (p.1 = v) && decide (p.2 = v))

/-- `np.sum(np.logical_or(label == val, pred == val))`: the number of pixel
positions carrying `val` in at least one of the maps. -/
def unionCount (pred gt : List Int) (v : Int) : Nat :=
  (pred.zip gt).countP (fun p => decide (p.1 = v) || decide (p.2 = v))

/-- `Intersection[index] / Union[index]` for label value `v`. -/
def iouVal (pred gt : Mat) (v : Int) : ℚ :=
  (interCount pred.flatten gt.flatten v : ℚ) /
    (unionCount pred.flatten gt.flatten v : ℚ)

/-- `compute_iou(pred, label)` from denseposelib.py: for every distinct value
of the ground-truth map, the Jaccard index of the two value masks; returns the
IoU array together with the array of distinct ground-truth values. -/
def compute_iou (pred label : Mat) : List ℚ × List Int :=
  let unique_labels := npUnique label.flatten
  (unique_labels.map (fun v => iouVal pred label v), unique_labels)

theorem countP_zip_self_and (l : List Int) (v : Int) :
    (l.zip l).countP (fun p => decide (p.1 = v) && decide (p.2 = v)) =
      l.countP (fun x => decide (x = v)) := by
  induction l with
  | nil => rfl
  | cons a t ih =>
    by_cases h : a = v <;>
      simp [List.zip_cons_cons, List.countP_cons, h, ih]

theorem countP_zip_self_or (l : List Int) (v : Int) :
    (l.zip l).countP (fun p => decide (p.1 = v) || decide (p.2 = v)) =
      l.countP (fun x => decide (x = v)) := by
  induction l with
  | nil => rfl
  | cons a t ih =>
    by_cases h : a = v <;>
      simp [List.zip_cons_cons, List.countP_cons, h, ih]

/-- C6: `compute_iou` of a map against itself returns the IoU value 1 for
every label present in the map, and the labels it reports are exactly the
values present in the map. -/
theorem compute_iou_self (L : Mat) :
    (compute_iou L L).1 = (compute_iou L L).2.map (fun _ => (1 : ℚ)) ∧
    ∀ v : Int, v ∈ (compute_iou L L).2 ↔ v ∈ L.flatten := by
  constructor
  · apply List.map_congr_left
    intro v hv
    have hvmem : v ∈ L.flatten := (mem_npUnique v L.flatten).mp hv
    have hc : 0 < L.flatten.countP (fun x => decide (x = v)) :=
      List.countP_pos_iff.mpr ⟨v, hvmem, by simp⟩
    unfold iouVal interCount unionCount
    rw [countP_zip_self_and, countP_zip_self_or]
    exact div_self (Nat.cast_ne_zero.mpr hc.ne')
  · intro v
    exact mem_npUnique v L.flatten

theorem exists_zip_snd (l1 l2 : List Int) (v : Int)
    (h : l1.length = l2.length) (hv : v ∈ l2) :
    ∃ p ∈ l1.zip l2, p.2 = v := by
  induction l2 generalizing l1 with
  | nil => simp at hv
  | cons b t2 ih =>
    cases l1 with
    | nil => simp at h
    | cons a t1 =>
      simp only [List.length_cons, Nat.succ.injEq] at h
      rcases List.mem_cons.mp hv with h1 | h1
      · exact ⟨(a, b), List.mem_cons_self _ _, h1.symm⟩
      · rcases ih t1 h h1 with ⟨p, hp, hp2⟩
        exact ⟨p, List.mem_cons_of_mem _ hp, hp2⟩

theorem unionCount_pos (pred gt : List Int) (v : Int)
    (h : pred.length = gt.length) (hv : v ∈ gt) :
    0 < unionCount pred gt v := by
  rcases exists_zip_snd pred gt v h hv with ⟨p, hp, hp2⟩
  exact List.countP_pos_iff.mpr ⟨p, hp, by simp [hp2]⟩

/-- C10: every label value `compute_iou` iterates over comes from the distinct
values of the ground-truth map, hence its union pixel count is strictly
positive and the corresponding returned IoU entry is the well-defined quotient
intersection / union with a nonzero denominator. -/
theorem compute_iou_union_pos (pred gt : Mat)
    (h : pred.flatten.length = gt.flatten.length) :
    (compute_iou pred gt).1.length = (compute_iou pred gt).2.length ∧
    ∀ i, (hi : i < (compute_iou pred gt).2.length) →
      (compute_iou pred gt).2.get ⟨i, hi⟩ ∈ gt.flatten ∧
      0 < unionCount pred.flatten gt.flatten
        ((compute_iou pred gt).2.get ⟨i, hi⟩) ∧
      ((unionCount pred.flatten gt.flatten
        ((compute_iou pred gt).2.get ⟨i, hi⟩) : ℚ) ≠ 0) ∧
      (compute_iou pred gt).1.getD i 0 =
        (interCount pred.flatten gt.flatten
            ((compute_iou pred gt).2.get ⟨i, hi⟩) : ℚ) /
          (unionCount pred.flatten gt.flatten
            ((compute_iou pred gt).2.get ⟨i, hi⟩) : ℚ) := by
  refine ⟨by simp [compute_iou], ?_⟩
  intro i hi
  set ul := npUnique gt.flatten with hul
  have hget : (compute_iou pred gt).2.get ⟨i, hi⟩ = ul.get ⟨i, hi⟩ := rfl
  have hmem : ul.get ⟨i, hi⟩ ∈ ul := List.get_mem ul i hi
  have hmem' : ul.get ⟨i, hi⟩ ∈ gt.flatten :=
    (mem_npUnique _ gt.flatten).mp hmem
  have hpos : 0 < unionCount pred.flatten gt.flatten (ul.get ⟨i, hi⟩) :=
    unionCount_pos pred.flatten gt.flatten _ h hmem'
  refine ⟨hget ▸ hmem', hget ▸ hpos, hget ▸ Nat.cast_ne_zero.mpr hpos.ne', ?_⟩
  rw [hget]
  have h1 : (compute_iou pred gt).1 = ul.map (fun v => iouVal pred gt v) := rfl
  rw [h1, getD_map_lt _ ul i hi 0 0]
  rw [List.getD_eq_getElem ul 0 hi]
  rfl

theorem compute_iou_union_pos_witness :
    0 < unionCount ([[1]] : Mat).flatten ([[1]] : Mat).flatten
        ((compute_iou [[1]] [[1]]).2.get ⟨0, by decide⟩) :=
  ((compute_iou_union_pos [[1]] [[1]] (by decide)).2 0 (by decide)).2.1

/-- Numpy float division with the zero-denominator case made explicit:
`0 < b` gives the exact quotient, `b = 0` propagates NaN (modelled as
`none`); it never raises. -/
def divNaN (a b : ℚ) : Option ℚ :=
  if b = 0 then none else some (a / b)

/-- `compute_iou` with every per-label division routed through `divNaN`, so
that a zero union would surface as `none` (NaN) instead of a crash. -/
def compute_iou_nan (pred label : Mat) : List (Option ℚ) :=
  (npUnique label.flatten).map
    (fun v =>
      divNaN (interCount pred.flatten label.flatten v : ℚ)
        (unionCount pred.flatten label.flatten v : ℚ))

/-- C4: `compute_iou` never raises: in the model where a zero-union division
propagates NaN (`none`) instead of crashing, every entry it computes is in
fact a proper value (`isSome`) — the zero-union case never occurs because the
labels come from the ground truth — and the NaN-model agrees with
`compute_iou` entrywise. -/
theorem compute_iou_no_crash (pred gt : Mat)
    (h : pred.flatten.length = gt.flatten.length) :
    (∀ x ∈ compute_iou_nan pred gt, x.isSome) ∧
    compute_iou_nan pred gt = (compute_iou pred gt).1.map some := by
  have key : ∀ v ∈ npUnique gt.flatten,
      divNaN (interCount pred.flatten gt.flatten v : ℚ)
          (unionCount pred.flatten gt.flatten v : ℚ) =
        some (iouVal pred gt v) := by
    intro v hv
    have hvmem : v ∈ gt.flatten := (mem_npUnique v gt.flatten).mp hv
    have hpos : 0 < unionCount pred.flatten gt.flatten v :=
      unionCount_pos pred.flatten gt.flatten v h hvmem
    unfold divNaN iouVal
    rw [if_neg (Nat.cast_ne_zero.mpr hpos.ne')]
  constructor
  · intro x hx
    rcases List.mem_map.mp hx with ⟨v, hv, hvx⟩
    rw [← hvx, key v hv]
    rfl
  · show (npUnique gt.flatten).map _ = ((npUnique gt.flatten).map _).map some
    rw [List.map_map]
    exact List.map_congr_left key

theorem compute_iou_no_crash_witness :
    compute_iou_nan [[1]] [[1]] = (compute_iou [[1]] [[1]]).1.map some :=
  (compute_iou_no_crash [[1]] [[1]] (by decide)).2

/-! ### `calculate_centroids` (without connected-component analysis) -/

/-- Pixel positions `(row, col)` of the mask `labels == label_id`. -/
def labelPositions (m : Mat) (v : Int) : List (Nat × Nat) :=
  (m.enum.map
    (fun p =>
      p.2.enum.filterMap
        (fun q => if q.2 = v then some (p.1, q.1) else none))).flatten

/-- `np.array(center_of_mass(label_mask)).astype(np.int)`: the mean pixel
position of the mask, truncated to integers.  Pixel coordinates are
non-negative, so `astype(np.int)` truncation is floor, i.e. `Nat` division
of the coordinate sums by the pixel count. -/
def centroidOf (m : Mat) (v : Int) : Nat × Nat :=
  let ps := labelPositions m v
  ((ps.map Prod.fst).sum / ps.length, (ps.map Prod.snd).sum / ps.length)

/-- `calculate_centroids(labels, cca=False, background)` from denseposelib.py:
`set(np.unique(labels)) - set([background])` (iterated in sorted order), one
centroid per remaining label. -/
def calculate_centroids (m : Mat) (background : Int) :
    List (Nat × Nat) × List Int :=
  let unique_labels :=
    (npUnique m.flatten).filter (fun v => decide (v ≠ background))
  (unique_labels.map (fun v => centroidOf m v), unique_labels)

/-- Modelled from the spec words "mean pixel position (row, column) ...
rounded to integer coordinates": the centroid with round-to-nearest instead
of the code's truncation; used to contrast the claim with the code. -/
def centroidRounded (m : Mat) (v : Int) : ℤ × ℤ :=
  let ps := labelPositions m v
  (round (((ps.map Prod.fst).sum : ℚ) / (ps.length : ℚ)),
    round (((ps.map Prod.snd).sum : ℚ) / (ps.length : ℚ)))

/-- The centroid list that the spec sentence describes (rounding). -/
def centroidsRounded (m : Mat) (background : Int) : List (ℤ × ℤ) :=
  ((npUnique m.flatten).filter (fun v => decide (v ≠ background))).map
    (fun v => centroidRounded m v)

/-- C5 counterexample: on the map `[[0], [5], [5]]` label 5 occupies rows 1
and 2 (mean row 1.5); the code truncates to row 1 while rounding to the
nearest integer gives row 2, so the claimed "rounded" centroid differs from
what `calculate_centroids` returns. -/
theorem calculate_centroids_not_rounded :
    (calculate_centroids [[0], [5], [5]] 0).1.map
        (fun p => ((p.1 : ℤ), (p.2 : ℤ))) ≠
      centroidsRounded [[0], [5], [5]] 0 := by
  have h1 : (calculate_centroids [[0], [5], [5]] 0).1 = [(1, 0)] := by decide
  have hul : ((npUnique ([[0], [5], [5]] : Mat).flatten).filter
      (fun v => decide (v ≠ 0))) = [5] := by decide
  have hps : labelPositions [[0], [5], [5]] 5 = [(1, 0), (2, 0)] := by decide
  have h2 : centroidsRounded [[0], [5], [5]] 0 = [(2, 0)] := by
    unfold centroidsRounded
    rw [hul]
    simp only [List.map_cons, List.map_nil, centroidRounded, hps]
    norm_num [round_eq]
  rw [h1, h2]
  decide

/-- C5 (amended): without connected-component analysis,
`calculate_centroids` returns exactly one centroid per distinct
non-background label present in the map, each paired with its label, the
centroid being the mean pixel position (row, column) of the label's pixels
truncated (floored) to integer coordinates — not rounded to nearest. -/
theorem calculate_centroids_spec (m : Mat) (background : Int) :
    ((calculate_centroids m background).2.Nodup ∧
      ∀ v : Int,
        v ∈ (calculate_centroids m background).2 ↔
          v ∈ m.flatten ∧ v ≠ background) ∧
    (calculate_centroids m background).1.length =
      (calculate_centroids m background).2.length ∧
    ∀ i, (hi : i < (calculate_centroids m background).2.length) →
      ((calculate_centroids m background).1.getD i (0, 0)).1 =
        ⌊(((labelPositions m
              ((calculate_centroids m background).2.get ⟨i, hi⟩)).map
                Prod.fst).sum : ℚ) /
            ((labelPositions m
              ((calculate_centroids m background).2.get ⟨i, hi⟩)).length : ℚ)⌋₊ ∧
      ((calculate_centroids m background).1.getD i (0, 0)).2 =
        ⌊(((labelPositions m
              ((calculate_centroids m background).2.get ⟨i, hi⟩)).map
                Prod.snd).sum : ℚ) /
            ((labelPositions m
              ((calculate_centroids m background).2.get ⟨i, hi⟩)).length : ℚ)⌋₊ := by
  refine ⟨⟨?_, ?_⟩, by simp [calculate_centroids], ?_⟩
  · exact (nodup_npUnique m.flatten).filter _
  · intro v
    show v ∈ (npUnique m.flatten).filter _ ↔ _
    rw [List.mem_filter, mem_npUnique]
    simp
  · intro i hi
    have hmap : (calculate_centroids m background).1.getD i (0, 0) =
        centroidOf m ((calculate_centroids m background).2.get ⟨i, hi⟩) := by
      show ((((npUnique m.flatten).filter
          (fun v => decide (v ≠ background))).map
            (fun v => centroidOf m v)).getD i (0, 0)) = _
      rw [getD_map_lt (fun v => centroidOf m v)
        ((npUnique m.flatten).filter (fun v => decide (v ≠ background))) i hi
        (0, 0) 0]
      congr 1
      show ((npUnique m.flatten).filter
          (fun v => decide (v ≠ background))).getD i 0 =
        ((npUnique m.flatten).filter
          (fun v => decide (v ≠ background))).get ⟨i, hi⟩
      have hi' : i < ((npUnique m.flatten).filter
          (fun v => decide (v ≠ background))).length := hi
      rw [List.getD_eq_getElem _ 0 hi', List.get_eq_getElem]
    rw [hmap]
    unfold centroidOf
    constructor
    · rw [Nat.floor_div_nat, Nat.floor_natCast]
    · rw [Nat.floor_div_nat, Nat.floor_natCast]

theorem calculate_centroids_spec_witness :
    ((calculate_centroids [[0], [5], [5]] 0).1.getD 0 (0, 0)).1 =
      ⌊(((labelPositions [[0], [5], [5]]
            ((calculate_centroids [[0], [5], [5]] 0).2.get ⟨0, by decide⟩)).map
              Prod.fst).sum : ℚ) /
          ((labelPositions [[0], [5], [5]]
            ((calculate_centroids [[0], [5], [5]] 0).2.get
              ⟨0, by decide⟩)).length : ℚ)⌋₊ :=
  ((calculate_centroids_spec [[0], [5], [5]] 0).2.2 0 (by decide)).1

/-! ### `PART_LIST` and `semantic_remap_dict2remap_dict` -/

/-- `PART_LIST = list(PART_DICT_ID2STR.values())`: the part vocabulary in ID
order. -/
def PART_LIST : List String :=
  ["background", "back", "chest", "right_hand", "left_hand", "left_foot",
    "right_foot", "back_upper_front_leg", "back_upper_left_leg",
    "right_upper_leg", "left_upper_leg", "back_right_lower_leg",
    "back_left_lower_leg", "right_lower_leg", "left_lower_leg",
    "left_upper_arm1", "right_upper_arm1", "left_upper_arm2",
    "right_upper_arm2", "left_lower_arm1", "right_lower_arm1",
    "left_lower_arm2", "right_lower_arm2", "left_head", "right_head"]

/-- Python `list.index`: position of the first occurrence, or an error
(`none`) when the element is absent. -/
def listIndex (x : String) : List String → Option Nat
  | [] => none
  | y :: ys => if y = x then some 0 else (listIndex x ys).map (· + 1)

/-- The vocabulary ID of an old part name (`PART_LIST.index(o)`), with a
dummy 0 for absent names (only used where presence is known). -/
def resolveId (o : String) : Nat := (listIndex o PART_LIST).getD 0

/-- Python dict assignment `d[k] = v` on an insertion-ordered association
list: replace in place if the key exists, append otherwise. -/
def dictUpd (d : List (Nat × Nat)) (k v : Nat) : List (Nat × Nat) :=
  if d.any (fun p => p.1 == k) then
    d.map (fun p => if p.1 = k then (k, v) else p)
  else d ++ [(k, v)]

/-- Association lookup on `Nat` keys. -/
def nlookup (k : Nat) : List (Nat × Nat) → Option Nat
  | [] => none
  | e :: rest => if e.1 = k then some e.2 else nlookup k rest

/-- Association lookup in the semantic grouping dict
(`semantic_remap_dict[new_label]`, `KeyError` as `none`). -/
def lookupStr (x : String) : List (String × List String) → Option (List String)
  | [] => none
  | e :: rest => if e.1 = x then some e.2 else lookupStr x rest

/-- `remap_dict.update({PART_LIST.index(o): i for o in old_keys})`: resolve
each old name and write its ID into the dict with value `i`; an unresolved
name is the `ValueError` from `list.index`. -/
def resolveOlds (i : Nat) : List String → List (Nat × Nat) →
    Option (List (Nat × Nat))
  | [], d => some d
  | o :: rest, d =>
      match listIndex o PART_LIST with
      | none => none
      | some k => resolveOlds i rest (dictUpd d k i)

/-- The loop `for i, new_label in enumerate(new_part_list)` of
`semantic_remap_dict2remap_dict`, over the remaining `(i, new_label)`
pairs. -/
def semGo (sem : List (String × List String)) :
    List (Nat × String) → List (Nat × Nat) → Option (List (Nat × Nat))
  | [], d => some d
  | q :: rest, d =>
      match lookupStr q.2 sem with
      | none => none
      | some olds =>
          match resolveOlds q.1 olds d with
          | none => none
          | some d2 => semGo sem rest d2

/-- `semantic_remap_dict2remap_dict(semantic_remap_dict, new_part_list)` from
denseposelib.py; a raised `KeyError`/`ValueError` is `none`. -/
def semantic_remap_dict2remap_dict (sem : List (String × List String))
    (new_part_list : List String) : Option (List (Nat × Nat)) :=
  semGo sem new_part_list.enum []

/-- All vocabulary IDs that a run over `pairs` writes, in processing
order. -/
def pairIds (sem : List (String × List String))
    (pairs : List (Nat × String)) : List Nat :=
  (pairs.map (fun q => ((lookupStr q.2 sem).getD []).map resolveId)).flatten

/-- C7 counterexample: the grouping table lists the old name
`"nosuchpart"`, which is absent from the vocabulary, yet the call succeeds
(the new-name list is empty, so the entry is never resolved); the claim says
every absent old name in the table makes the call fail. -/
theorem semantic_remap_no_failure_on_unprocessed :
    semantic_remap_dict2remap_dict [("x", ["nosuchpart"])] [] = some [] ∧
    "nosuchpart" ∉ PART_LIST := by
  constructor
  · rfl
  · decide

theorem listIndex_eq_none_iff (x : String) (l : List String) :
    listIndex x l = none ↔ x ∉ l := by
  induction l with
  | nil => simp [listIndex]
  | cons y ys ih =>
    by_cases h : y = x
    · simp [listIndex, if_pos h, h]
    · simp only [listIndex, if_neg h, List.mem_cons]
      rw [Option.map_eq_none']
      rw [ih]
      constructor
      · intro hn hor
        rcases hor with h1 | h2
        · exact h h1.symm
        · exact hn h2
      · intro hn h2
        exact hn (Or.inr h2)

theorem listIndex_isSome_of_mem {x : String} {l : List String} (h : x ∈ l) :
    ∃ k, listIndex x l = some k := by
  cases hk : listIndex x l with
  | none => exact absurd ((listIndex_eq_none_iff x l).mp hk) (by simp [h])
  | some k => exact ⟨k, rfl⟩

theorem nlookup_append (k : Nat) (d1 d2 : List (Nat × Nat)) :
    nlookup k (d1 ++ d2) =
      match nlookup k d1 with
      | some v => some v
      | none => nlookup k d2 := by
  induction d1 with
  | nil => simp [nlookup]
  | cons e rest ih =>
    by_cases h : e.1 = k
    · simp [nlookup, if_pos h]
    · simp [nlookup, if_neg h, ih]

theorem nlookup_map_upd_of_mem (d : List (Nat × Nat)) (k v : Nat)
    (h : k ∈ d.map Prod.fst) :
    nlookup k (d.map (fun p => if p.1 = k then (k, v) else p)) = some v := by
  induction d with
  | nil => simp at h
  | cons e rest ih =>
    by_cases hk : e.1 = k
    · simp [nlookup, if_pos hk]
    · simp only [List.map_cons, List.mem_cons] at h
      rcases h with h1 | h2
      · exact absurd h1.symm hk
      · simp only [List.map_cons, if_neg hk]
        rw [show nlookup k
            ((e :: rest.map (fun p => if p.1 = k then (k, v) else p))) =
          nlookup k (rest.map (fun p => if p.1 = k then (k, v) else p)) from by
            simp [nlookup, if_neg hk]]
        exact ih h2

theorem nlookup_map_upd_other (d : List (Nat × Nat)) (k v k' : Nat)
    (h : k' ≠ k) :
    nlookup k' (d.map (fun p => if p.1 = k then (k, v) else p)) =
      nlookup k' d := by
  induction d with
  | nil => rfl
  | cons e rest ih =>
    by_cases hk : e.1 = k
    · have h2 : ¬ (k = k') := fun he => h he.symm
      have h3 : ¬ (e.1 = k') := by rw [hk]; exact h2
      simp [nlookup, if_pos hk, if_neg h2, if_neg h3, ih]
    · by_cases hk' : e.1 = k'
      · simp [nlookup, if_neg hk, if_pos hk']
      · simp [nlookup, if_neg hk, if_neg hk', ih]

theorem nlookup_eq_none_of_not_any (d : List (Nat × Nat)) (k : Nat)
    (h : ¬ d.any (fun p => p.1 == k)) : nlookup k d = none := by
  induction d with
  | nil => rfl
  | cons e rest ih =>
    simp only [List.any_cons, Bool.or_eq_true] at h
    push_neg at h
    have h1 : ¬ (e.1 = k) := by
      intro he
      exact h.1 (by simp [he])
    rw [show nlookup k (e :: rest) = nlookup k rest from by
      simp [nlookup, if_neg h1]]
    exact ih (by simpa using h.2)

theorem nlookup_dictUpd_self (d : List (Nat × Nat)) (k v : Nat) :
    nlookup k (dictUpd d k v) = some v := by
  unfold dictUpd
  by_cases h : d.any (fun p => p.1 == k)
  · rw [if_pos h]
    apply nlookup_map_upd_of_mem
    rcases List.any_eq_true.mp h with ⟨p, hp, hpk⟩
    exact List.mem_map.mpr ⟨p, hp, by simpa using hpk⟩
  · rw [if_neg h, nlookup_append, nlookup_eq_none_of_not_any d k h]
    simp [nlookup]

theorem nlookup_dictUpd_other (d : List (Nat × Nat)) (k v k' : Nat)
    (h : k' ≠ k) : nlookup k' (dictUpd d k v) = nlookup k' d := by
  unfold dictUpd
  by_cases hany : d.any (fun p => p.1 == k)
  · rw [if_pos hany]
    exact nlookup_map_upd_other d k v k' h
  · rw [if_neg hany, nlookup_append]
    cases hd : nlookup k' d with
    | some w => rfl
    | none =>
      show nlookup k' [(k, v)] = none
      simp [nlookup, if_neg (Ne.symm h)]

theorem resolveOlds_isSome (i : Nat) (olds : List String)
    (d : List (Nat × Nat)) :
    (resolveOlds i olds d).isSome ↔ ∀ o ∈ olds, o ∈ PART_LIST := by
  induction olds generalizing d with
  | nil => simp [resolveOlds]
  | cons o rest ih =>
    cases hk : listIndex o PART_LIST with
    | none =>
      have ho : o ∉ PART_LIST := (listIndex_eq_none_iff o PART_LIST).mp hk
      simp [resolveOlds, hk, ho]
    | some k =>
      have ho : o ∈ PART_LIST := by
        by_contra hno
        rw [← listIndex_eq_none_iff o PART_LIST] at hno
        rw [hk] at hno
        exact Option.noConfusion hno
      simp only [resolveOlds, hk]
      rw [ih (dictUpd d k i)]
      simp [ho]

theorem resolveOlds_preserves (i : Nat) (olds : List String)
    (d d2 : List (Nat × Nat)) (h : resolveOlds i olds d = some d2) (k : Nat)
    (hk : k ∉ olds.map resolveId) : nlookup k d2 = nlookup k d := by
  induction olds generalizing d with
  | nil =>
    simp only [resolveOlds, Option.some.injEq] at h
    rw [h]
  | cons o rest ih =>
    simp only [List.map_cons, List.mem_cons] at hk
    push_neg at hk
    cases hidx : listIndex o PART_LIST with
    | none => simp [resolveOlds, hidx] at h
    | some k0 =>
      have hk0 : resolveId o = k0 := by simp [resolveId, hidx]
      simp only [resolveOlds, hidx] at h
      rw [ih (dictUpd d k0 i) h hk.2]
      exact nlookup_dictUpd_other d k0 i k (hk0 ▸ hk.1)

theorem resolveOlds_assigns (i : Nat) (olds : List String)
    (d d2 : List (Nat × Nat)) (h : resolveOlds i olds d = some d2) :
    ∀ o ∈ olds, nlookup (resolveId o) d2 = some i := by
  induction olds generalizing d with
  | nil => simp
  | cons o rest ih =>
    cases hidx : listIndex o PART_LIST with
    | none => simp [resolveOlds, hidx] at h
    | some k0 =>
      have hk0 : resolveId o = k0 := by simp [resolveId, hidx]
      simp only [resolveOlds, hidx] at h
      intro o' ho'
      rcases List.mem_cons.mp ho' with h1 | h2
      · subst h1
        rw [hk0]
        by_cases hmem : k0 ∈ rest.map resolveId
        · rcases List.mem_map.mp hmem with ⟨o2, ho2, ho2k⟩
          rw [← ho2k]
          exact ih (dictUpd d k0 i) h o2 ho2
        · rw [resolveOlds_preserves i rest (dictUpd d k0 i) d2 h k0 hmem]
          exact nlookup_dictUpd_self d k0 i
      · exact ih (dictUpd d k0 i) h o' h2

theorem semGo_isSome (sem : List (String × List String))
    (pairs : List (Nat × String)) (d : List (Nat × Nat)) :
    (semGo sem pairs d).isSome ↔
      ∀ q ∈ pairs, ∃ olds, lookupStr q.2 sem = some olds ∧
        ∀ o ∈ olds, o ∈ PART_LIST := by
  induction pairs generalizing d with
  | nil => simp [semGo]
  | cons q rest ih =>
    cases hlo : lookupStr q.2 sem with
    | none => simp [semGo, hlo]
    | some olds =>
      cases hro : resolveOlds q.1 olds d with
      | none =>
        have hbad : ¬ ∀ o ∈ olds, o ∈ PART_LIST := by
          intro hall
          have := (resolveOlds_isSome q.1 olds d).mpr hall
          rw [hro] at this
          simp at this
        simp [semGo, hlo, hro, hbad]
      | some d2 =>
        simp only [semGo, hlo, hro]
        rw [ih d2]
        constructor
        · intro hall
          intro q' hq'
          rcases List.mem_cons.mp hq' with h1 | h2
          · subst h1
            refine ⟨olds, hlo, ?_⟩
            have := (resolveOlds_isSome q'.1 olds d).mp (by rw [hro]; rfl)
            exact this
          · exact hall q' h2
        · intro hall q' hq'
          exact hall q' (List.mem_cons_of_mem _ hq')

theorem semGo_preserves (sem : List (String × List String))
    (pairs : List (Nat × String)) (d d2 : List (Nat × Nat))
    (h : semGo sem pairs d = some d2) (k : Nat)
    (hk : k ∉ pairIds sem pairs) : nlookup k d2 = nlookup k d := by
  induction pairs generalizing d with
  | nil =>
    simp only [semGo, Option.some.injEq] at h
    rw [h]
  | cons q rest ih =>
    cases hlo : lookupStr q.2 sem with
    | none => simp [semGo, hlo] at h
    | some olds =>
      cases hro : resolveOlds q.1 olds d with
      | none => simp [semGo, hlo, hro] at h
      | some d1 =>
        simp only [semGo, hlo, hro] at h
        simp only [pairIds, List.map_cons, List.flatten_cons, hlo,
          Option.getD_some, List.mem_append] at hk
        push_neg at hk
        rw [ih d1 h (by simpa [pairIds] using hk.2)]
        exact resolveOlds_preserves q.1 olds d d1 hro k hk.1

theorem semGo_content (sem : List (String × List String))
    (pairs : List (Nat × String)) :
    ∀ d d2 : List (Nat × Nat), (pairIds sem pairs).Nodup →
      semGo sem pairs d = some d2 →
      ∀ q ∈ pairs, ∀ o ∈ (lookupStr q.2 sem).getD [],
        nlookup (resolveId o) d2 = some q.1 := by
  induction pairs with
  | nil =>
    intro d d2 _ _
    simp
  | cons q rest ih =>
    intro d d2 hnd h
    cases hlo : lookupStr q.2 sem with
    | none => simp [semGo, hlo] at h
    | some olds =>
      cases hro : resolveOlds q.1 olds d with
      | none => simp [semGo, hlo, hro] at h
      | some d1 =>
        simp only [semGo, hlo, hro] at h
        have hnd' : (olds.map resolveId ++ pairIds sem rest).Nodup := by
          simpa [pairIds, hlo] using hnd
        rw [List.nodup_append] at hnd'
        intro q' hq'
        rcases List.mem_cons.mp hq' with h1 | h2
        · subst h1
          rw [hlo]
          intro o ho
          have hk : resolveId o ∈ olds.map resolveId :=
            List.mem_map.mpr ⟨o, ho, rfl⟩
          have hnot : resolveId o ∉ pairIds sem rest :=
            fun hc => hnd'.2.2 hk hc
          rw [semGo_preserves sem rest d1 d2 h (resolveId o) hnot]
          exact resolveOlds_assigns q'.1 olds d d1 hro o ho
        · exact ih d1 d2 hnd'.2.1 h q' h2

theorem forall_enumFrom_snd {α : Type} (P : α → Prop) (l : List α) (s : Nat) :
    (∀ q ∈ l.enumFrom s, P q.2) ↔ (∀ n ∈ l, P n) := by
  induction l generalizing s with
  | nil => simp
  | cons a t ih =>
    simp only [List.enumFrom, List.mem_cons]
    constructor
    · intro h n hn
      rcases hn with h1 | h2
      · exact h1 ▸ h (s, a) (Or.inl rfl)
      · exact (ih (s + 1)).mp (fun q hq => h q (Or.inr hq)) n h2
    · intro h q hq
      rcases hq with h1 | h2
      · rw [h1]
        exact h a (Or.inl rfl)
      · exact (ih (s + 1)).mpr (fun n hn => h n (Or.inr hn)) q h2

theorem mem_enumFrom_get {α : Type} (l : List α) (s j : Nat)
    (hj : j < l.length) :
    (s + j, l.get ⟨j, hj⟩) ∈ l.enumFrom s := by
  induction l generalizing s j with
  | nil => simp at hj
  | cons a t ih =>
    cases j with
    | zero => simp [List.enumFrom]
    | succ n =>
      simp only [List.enumFrom, List.mem_cons]
      right
      have := ih (s + 1) n (Nat.lt_of_succ_lt_succ hj)
      rw [show s + (n + 1) = s + 1 + n from by omega]
      exact this

theorem mem_enum_get {α : Type} (l : List α) (j : Nat) (hj : j < l.length) :
    (j, l.get ⟨j, hj⟩) ∈ l.enum := by
  have := mem_enumFrom_get l 0 j hj
  simpa [List.enum] using this

/-- C7 (amended): `semantic_remap_dict2remap_dict` succeeds exactly when —
unconditionally, for every grouping table and every ordered list — each new
category name in the ordered list is a key of the grouping table and every
old part name listed under those (processed) keys is in the part
vocabulary; an old name absent from the vocabulary makes it fail only when
it is listed under a processed new name.  On success — given that no two
processed old names resolve to the same vocabulary ID — the returned map
sends each resolved old ID to the position of its new category name in the
ordered list. -/
theorem semantic_remap_dict2remap_dict_spec
    (sem : List (String × List String)) (npl : List String) :
    ((semantic_remap_dict2remap_dict sem npl).isSome ↔
      ∀ n ∈ npl, ∃ olds, lookupStr n sem = some olds ∧
        ∀ o ∈ olds, o ∈ PART_LIST) ∧
    ∀ d, semantic_remap_dict2remap_dict sem npl = some d →
      (pairIds sem npl.enum).Nodup →
      ∀ j, (hj : j < npl.length) →
        ∀ o ∈ (lookupStr (npl.get ⟨j, hj⟩) sem).getD [],
          nlookup (resolveId o) d = some j := by
  constructor
  · rw [show semantic_remap_dict2remap_dict sem npl =
      semGo sem npl.enum [] from rfl]
    rw [semGo_isSome]
    exact forall_enumFrom_snd
      (fun n => ∃ olds, lookupStr n sem = some olds ∧
        ∀ o ∈ olds, o ∈ PART_LIST) npl 0
  · intro d h hnd j hj o ho
    exact semGo_content sem npl.enum [] d hnd h (j, npl.get ⟨j, hj⟩)
      (mem_enum_get npl j hj) o ho

theorem semantic_remap_dict2remap_dict_spec_witness :
    nlookup (resolveId "left_head") [(23, 0), (24, 0), (1, 1)] = some 0 :=
  (semantic_remap_dict2remap_dict_spec
      [("head", ["left_head", "right_head"]), ("back", ["back"])]
      ["head", "back"]).2
    [(23, 0), (24, 0), (1, 1)] (by decide) (by decide) 0 (by decide)
    "left_head" (by decide)

/-! ### `resize_labels` -/

/-- `cv2.resize(img, size, interpolation=cv2.INTER_NEAREST)`: `size` is
`(width, height)`; nearest-neighbor sampling picks the source pixel
`floor(dst * src_extent / dst_extent)` along each axis. -/
def cvResizeNearest (img : Mat) (size : Nat × Nat) : Mat :=
  (List.range size.2).map
    (fun r =>
      (List.range size.1).map
        (fun c =>
          getPixel img (r * img.length / size.2)
            (c * (img.headD []).length / size.1)))

/-- `np.squeeze` of one `[1, H, W]` piece produced by `np.split(·, N, 0)`. -/
def npSqueeze (s : List Mat) : Mat := s.headD []

/-- A labels array of rank 2 (one map) or rank 3 (a batch of maps). -/
inductive LabelsArr
  | d2 (m : Mat)
  | d3 (ms : List Mat)

/-- `resize_labels(labels, size)` from denseposelib.py.  The 2-D branch
resizes directly; the 3-D branch splits along axis 0 into `[1, H, W]`
pieces, squeezes each, resizes each slice, and stacks the results. -/
def resize_labels : LabelsArr → Nat × Nat → LabelsArr
  | .d2 m, size => .d2 (cvResizeNearest m size)
  | .d3 ms, size =>
      .d3 ((ms.map (fun x => [x])).map
        (fun x => cvResizeNearest (npSqueeze x) size))

/-- C9: resizing a 3-D batch yields a batch of the same length in the same
order, the i-th output slice being exactly the 2-D resize of the i-th input
slice, and every output pixel is a pixel of the input slice (nearest
neighbor: values are sampled, never blended). -/
theorem resize_labels_batch (ms : List Mat) (size : Nat × Nat) :
    ∃ out : List Mat, resize_labels (LabelsArr.d3 ms) size = LabelsArr.d3 out ∧
      out.length = ms.length ∧
      ∀ i, (hi : i < ms.length) →
        resize_labels (LabelsArr.d2 (ms.get ⟨i, hi⟩)) size =
          LabelsArr.d2 (out.getD i []) ∧
        ∀ r c : Nat, r < size.2 → c < size.1 →
          ∃ rs cs : Nat,
            getPixel (out.getD i []) r c = getPixel (ms.get ⟨i, hi⟩) rs cs := by
  refine ⟨ms.map (fun m => cvResizeNearest m size), ?_, by simp, ?_⟩
  · show LabelsArr.d3 _ = _
    rw [List.map_map]
    rfl
  · intro i hi
    have hout : (ms.map (fun m => cvResizeNearest m size)).getD i [] =
        cvResizeNearest (ms.get ⟨i, hi⟩) size := by
      rw [getD_map_lt (fun m => cvResizeNearest m size) ms i hi [] []]
      congr 1
      rw [List.getD_eq_getElem _ [] hi, List.get_eq_getElem]
    constructor
    · rw [hout]
      rfl
    · intro r c hr hc
      refine ⟨r * (ms.get ⟨i, hi⟩).length / size.2,
        c * ((ms.get ⟨i, hi⟩).headD []).length / size.1, ?_⟩
      rw [hout]
      unfold cvResizeNearest getPixel
      rw [getD_map_lt _ (List.range size.2) r (by simpa using hr) [] 0,
        getD_map_lt _ (List.range size.1) c (by simpa using hc) 0 0,
        List.getD_eq_getElem (List.range size.2) 0 (by simpa using hr),
        List.getD_eq_getElem (List.range size.1) 0 (by simpa using hc),
        List.getElem_range, List.getElem_range]

theorem resize_labels_batch_witness :
    ∃ out : List Mat,
      resize_labels (LabelsArr.d3 [[[7]]]) (1, 1) = LabelsArr.d3 out ∧
      out.length = 1 ∧
      ∀ i, (hi : i < ([[[7]]] : List Mat).length) →
        resize_labels (LabelsArr.d2 (([[[7]]] : List Mat).get ⟨i, hi⟩)) (1, 1) =
          LabelsArr.d2 (out.getD i []) ∧
        ∀ r c : Nat, r < 1 → c < 1 →
          ∃ rs cs : Nat,
            getPixel (out.getD i []) r c =
              getPixel (([[[7]]] : List Mat).get ⟨i, hi⟩) rs cs :=
  resize_labels_batch [[[7]]] (1, 1)

/-! ### `calculate_iou_df` -/

/-- Python dict assignment `f[k] = v`, on a dict viewed as a partial map
from column name to value. -/
def dUpd (f : String → Option ℚ) (k : String) (v : ℚ) : String → Option ℚ :=
  fun x => if x = k then some v else f x

/-- `df_update = {p: -1.0 for p in label_names}`. -/
def initRow (names : List String) : String → Option ℚ :=
  names.foldl (fun f p => dUpd f p (-1)) (fun _ => none)

/-- `float(np.squeeze(iou[pi == iou_labels]))`: the IoU entry whose label
equals `pi` (unique when the labels are distinct; guarded by membership in
the code). -/
def selectIou (iou : List ℚ) (labels : List Int) (v : Int) : ℚ :=
  ((iou.zip labels).filterMap
    (fun p => if p.2 = v then some p.1 else none)).headD 0

/-- The merge
`df_update.update({p: ... for pi, p in enumerate(label_names) if pi in iou_labels})`,
processed pair by pair over the enumerated label names. -/
def updMatches (iou : List ℚ) (labels : List Int) :
    List (Nat × String) → (String → Option ℚ) → (String → Option ℚ)
  | [], f => f
  | q :: rest, f =>
      updMatches iou labels rest
        (if (q.1 : Int) ∈ labels then
          dUpd f q.2 (selectIou iou labels (q.1 : Int))
        else f)

/-- One appended dataframe row of `calculate_iou_df`: sentinel init, entries
for the ground-truth-present label IDs, then the `batch_idx` column. -/
def iou_row (names : List String) (batch_idx : Nat) (pred gt : Mat) :
    String → Option ℚ :=
  dUpd
    (updMatches (compute_iou pred gt).1 (compute_iou pred gt).2 names.enum
      (initRow names))
    "batch_idx" (batch_idx : ℚ)

/-- `calculate_iou_df(predicted, target, label_names)` from denseposelib.py:
one row per sample, in sample order. -/
def calculate_iou_df (predicted target : List Mat) (names : List String) :
    List (String → Option ℚ) :=
  (List.range predicted.length).map
    (fun i => iou_row names i (predicted.getD i []) (target.getD i []))

theorem foldl_dUpd_init (names : List String) (f : String → Option ℚ)
    (x : String) :
    (names.foldl (fun g p => dUpd g p (-1)) f) x =
      if x ∈ names then some (-1) else f x := by
  induction names generalizing f with
  | nil => simp
  | cons p rest ih =>
    simp only [List.foldl_cons, List.mem_cons]
    rw [ih (dUpd f p (-1))]
    by_cases h1 : x ∈ rest
    · simp [h1]
    · by_cases h2 : x = p
      · simp [h1, h2, dUpd]
      · simp [h1, h2, dUpd]

theorem initRow_eq (names : List String) (x : String) :
    initRow names x = if x ∈ names then some (-1) else none :=
  foldl_dUpd_init names (fun _ => none) x

theorem updMatches_not_mem (iou : List ℚ) (labels : List Int)
    (pairs : List (Nat × String)) (f : String → Option ℚ) (x : String)
    (hx : x ∉ pairs.map Prod.snd) : updMatches iou labels pairs f x = f x := by
  induction pairs generalizing f with
  | nil => rfl
  | cons q rest ih =>
    simp only [List.map_cons, List.mem_cons] at hx
    push_neg at hx
    rw [show updMatches iou labels (q :: rest) f =
      updMatches iou labels rest
        (if (q.1 : Int) ∈ labels then
          dUpd f q.2 (selectIou iou labels (q.1 : Int))
        else f) from rfl]
    rw [ih _ hx.2]
    by_cases hc : (q.1 : Int) ∈ labels
    · simp [hc, dUpd, hx.1]
    · simp [hc]

theorem updMatches_at (iou : List ℚ) (labels : List Int)
    (pairs : List (Nat × String)) (f : String → Option ℚ) (q : Nat × String)
    (hq : q ∈ pairs) (hnd : (pairs.map Prod.snd).Nodup) :
    updMatches iou labels pairs f q.2 =
      if (q.1 : Int) ∈ labels then some (selectIou iou labels (q.1 : Int))
      else f q.2 := by
  induction pairs generalizing f with
  | nil => simp at hq
  | cons q0 rest ih =>
    simp only [List.map_cons, List.nodup_cons] at hnd
    rw [show updMatches iou labels (q0 :: rest) f =
      updMatches iou labels rest
        (if (q0.1 : Int) ∈ labels then
          dUpd f q0.2 (selectIou iou labels (q0.1 : Int))
        else f) from rfl]
    rcases List.mem_cons.mp hq with h1 | h2
    · subst h1
      rw [updMatches_not_mem iou labels rest _ q.2 hnd.1]
      by_cases hc : (q.1 : Int) ∈ labels
      · simp [hc, dUpd]
      · simp [hc]
    · have hx : q.2 ≠ q0.2 := by
        intro he
        exact hnd.1 (he ▸ List.mem_map.mpr ⟨q, h2, rfl⟩)
      rw [ih _ h2 hnd.2]
      by_cases hc : (q0.1 : Int) ∈ labels
      · simp [hc, dUpd, hx]
      · simp [hc]

theorem selectIou_map (labels : List Int) (g : Int → ℚ) (v : Int)
    (hv : v ∈ labels) : selectIou (labels.map g) labels v = g v := by
  induction labels with
  | nil => simp at hv
  | cons u t ih =>
    by_cases h : u = v
    · simp [selectIou, List.zip_cons_cons, h]
    · rcases List.mem_cons.mp hv with h1 | h2
      · exact absurd h1.symm h
      · simpa [selectIou, List.zip_cons_cons, h] using ih h2

theorem enumFrom_map_snd {α : Type} (l : List α) (s : Nat) :
    (l.enumFrom s).map Prod.snd = l := by
  induction l generalizing s with
  | nil => rfl
  | cons a t ih => simp [List.enumFrom, ih]

/-- C2: `calculate_iou_df` produces one row per sample in sample order, the
`batch_idx` column holding the sample position; for each (distinct) label
name, the row holds that label's IoU against the ground truth when the
label's ID is among the ground truth's present values, and the sentinel -1
otherwise. -/
theorem calculate_iou_df_spec (predicted target : List Mat)
    (names : List String) (_hlen : predicted.length = target.length)
    (hnd : names.Nodup) (hb : "batch_idx" ∉ names) :
    (calculate_iou_df predicted target names).length = predicted.length ∧
    ∀ i, (hi : i < predicted.length) →
      ((calculate_iou_df predicted target names).getD i (fun _ => none))
          "batch_idx" = some (i : ℚ) ∧
      ∀ j, (hj : j < names.length) →
        ((calculate_iou_df predicted target names).getD i (fun _ => none))
            (names.get ⟨j, hj⟩) =
          some (if (j : Int) ∈ (target.getD i []).flatten then
              iouVal (predicted.getD i []) (target.getD i []) (j : Int)
            else (-1 : ℚ)) := by
  constructor
  · simp [calculate_iou_df]
  · intro i hi
    have hrow :
        (calculate_iou_df predicted target names).getD i (fun _ => none) =
          iou_row names i (predicted.getD i []) (target.getD i []) := by
      unfold calculate_iou_df
      rw [getD_map_lt _ (List.range predicted.length) i (by simpa using hi)
        (fun _ => none) 0]
      rw [List.getD_eq_getElem (List.range predicted.length) 0
        (by simpa using hi), List.getElem_range]
    constructor
    · rw [hrow]
      simp [iou_row, dUpd]
    · intro j hj
      rw [hrow]
      have hxmem : names.get ⟨j, hj⟩ ∈ names := List.get_mem names j hj
      have hxb : names.get ⟨j, hj⟩ ≠ "batch_idx" := fun he => hb (he ▸ hxmem)
      unfold iou_row
      rw [show dUpd
          (updMatches
            (compute_iou (predicted.getD i []) (target.getD i [])).1
            (compute_iou (predicted.getD i []) (target.getD i [])).2
            names.enum (initRow names))
          "batch_idx" (i : ℚ) (names.get ⟨j, hj⟩) =
        updMatches
            (compute_iou (predicted.getD i []) (target.getD i [])).1
            (compute_iou (predicted.getD i []) (target.getD i [])).2
            names.enum (initRow names) (names.get ⟨j, hj⟩) from by
          unfold dUpd
          rw [if_neg hxb]]
      have hndsnd : (names.enum.map Prod.snd).Nodup := by
        rw [show names.enum.map Prod.snd = names from enumFrom_map_snd names 0]
        exact hnd
      rw [updMatches_at _ _ names.enum _ (j, names.get ⟨j, hj⟩)
        (mem_enum_get names j hj) hndsnd]
      have hmemiff :
          ((j : Int) ∈
            (compute_iou (predicted.getD i []) (target.getD i [])).2) ↔
          (j : Int) ∈ (target.getD i []).flatten :=
        mem_npUnique _ _
      by_cases hc : (j : Int) ∈ (target.getD i []).flatten
      · rw [if_pos (hmemiff.mpr hc), if_pos hc]
        congr 1
        rw [show (compute_iou (predicted.getD i []) (target.getD i [])).1 =
          (npUnique (target.getD i []).flatten).map
            (fun v => iouVal (predicted.getD i []) (target.getD i []) v)
          from rfl]
        exact selectIou_map (npUnique (target.getD i []).flatten) _ (j : Int)
          (hmemiff.mpr hc)
      · rw [if_neg (fun hmem => hc (hmemiff.mp hmem)), if_neg hc]
        rw [initRow_eq names (names.get ⟨j, hj⟩)]
        simp [hxmem]

theorem calculate_iou_df_spec_witness :
    ((calculate_iou_df [[[1]]] [[[1]]] ["a", "b"]).getD 0 (fun _ => none))
        ((["a", "b"] : List String).get ⟨0, by decide⟩) =
      some (if (0 : Int) ∈ (([[[1]]] : List Mat).getD 0 []).flatten then
          iouVal (([[[1]]] : List Mat).getD 0 [])
            (([[[1]]] : List Mat).getD 0 []) (0 : Int)
        else (-1 : ℚ)) :=
  ((calculate_iou_df_spec [[[1]]] [[[1]]] ["a", "b"] (by decide) (by decide)
      (by decide)).2 0 (by decide)).2 0 (by decide)

/-! ### `calculate_overall_iou_from_df` -/

/-- An IoU dataframe: named columns and rows of rational values. -/
structure DF where
  cols : List String
  rows : List (List ℚ)

/-- The values of column `j`, top to bottom. -/
def colVals (df : DF) (j : Nat) : List ℚ :=
  df.rows.map (fun r => r.getD j 0)

/-- One column of `df[df != -1].mean()`: the mask turns `-1` into NaN and
`mean` skips NaN, so this is the mean over the non-sentinel entries, `none`
(NaN) when the column holds only sentinels. -/
def colMeanSkip (vals : List ℚ) : Option ℚ :=
  let vs := vals.filter (fun v => decide (v ≠ -1))
  if vs.isEmpty then none else some (vs.sum / vs.length)

/-- The single row `df[df != -1].mean()`, one entry per column. -/
def dfMeans (df : DF) : List (Option ℚ) :=
  (List.range df.cols.length).map (fun j => colMeanSkip (colVals df j))

/-- `df_mean[filter(lambda x: x not in exclude_columns, df.columns)]
.mean(axis=1)`: the mean over the defined (non-NaN) per-column means of the
non-excluded columns. -/
def overallIou (df : DF) (excl : List String) : Option ℚ :=
  let keep := (List.range df.cols.length).filter
    (fun j => decide (df.cols.getD j "" ∉ excl))
  let kept := keep.filterMap (fun j => (dfMeans df).getD j none)
  if kept.isEmpty then none else some (kept.sum / kept.length)

/-- `calculate_overall_iou_from_df(df, exclude_columns)` from
denseposelib.py: the per-column means with the `overall` column appended. -/
def calculate_overall_iou_from_df (df : DF) (excl : List String) :
    List (String × Option ℚ) :=
  df.cols.zip (dfMeans df) ++ [("overall", overallIou df excl)]

theorem getD_replicate_lt {α : Type} (n j : Nat) (a d : α) (h : j < n) :
    (List.replicate n a).getD j d = a := by
  induction n generalizing j with
  | zero => simp at h
  | succ m ih =>
    cases j with
    | zero => rfl
    | succ k => exact ih k (Nat.lt_of_succ_lt_succ h)

theorem colMeanSkip_append_sentinel (vals : List ℚ) :
    colMeanSkip (vals ++ [-1]) = colMeanSkip vals := by
  unfold colMeanSkip
  rw [List.filter_append]
  simp

theorem dfMeans_append_sentinel (df : DF) :
    dfMeans ⟨df.cols, df.rows ++ [List.replicate df.cols.length (-1)]⟩ =
      dfMeans df := by
  unfold dfMeans
  apply List.map_congr_left
  intro j hj
  have hjlt : j < df.cols.length := List.mem_range.mp hj
  have hcv : colVals ⟨df.cols, df.rows ++ [List.replicate df.cols.length (-1)]⟩ j =
      colVals df j ++ [-1] := by
    unfold colVals
    rw [List.map_append]
    show colVals df j ++ [(List.replicate df.cols.length (-1 : ℚ)).getD j 0] =
      colVals df j ++ [-1]
    rw [getD_replicate_lt df.cols.length j (-1 : ℚ) 0 hjlt]
  rw [hcv, colMeanSkip_append_sentinel]

/-- C3: the reducer treats the sentinel -1 as missing, not as zero —
appending a row of sentinels changes neither the per-label means nor the
overall score — and whenever some non-excluded column has a non-sentinel
entry, the overall score is defined. -/
theorem calculate_overall_iou_from_df_spec (df : DF) (excl : List String) :
    calculate_overall_iou_from_df
        ⟨df.cols, df.rows ++ [List.replicate df.cols.length (-1)]⟩ excl =
      calculate_overall_iou_from_df df excl ∧
    ∀ j, (hj : j < df.cols.length) → df.cols.get ⟨j, hj⟩ ∉ excl →
      ∀ r ∈ df.rows, r.getD j 0 ≠ -1 → (overallIou df excl).isSome := by
  constructor
  · unfold calculate_overall_iou_from_df overallIou
    rw [dfMeans_append_sentinel]
  · intro j hj hex r hr hval
    unfold overallIou
    have hkeep : j ∈ (List.range df.cols.length).filter
        (fun j => decide (df.cols.getD j "" ∉ excl)) := by
      rw [List.mem_filter]
      refine ⟨List.mem_range.mpr hj, ?_⟩
      rw [List.getD_eq_getElem df.cols "" hj]
      simpa [← List.get_eq_getElem] using hex
    have hsome : ∃ q, (dfMeans df).getD j none = some q := by
      unfold dfMeans
      rw [getD_map_lt _ (List.range df.cols.length) j (by simpa using hj)
        none 0]
      rw [List.getD_eq_getElem (List.range df.cols.length) 0
        (by simpa using hj), List.getElem_range]
      unfold colMeanSkip
      have hmem : r.getD j 0 ∈ (colVals df j).filter
          (fun v => decide (v ≠ -1)) := by
        rw [List.mem_filter]
        exact ⟨List.mem_map.mpr ⟨r, hr, rfl⟩, by simpa using hval⟩
      have hne : ¬ ((colVals df j).filter
          (fun v => decide (v ≠ -1))).isEmpty := by
        intro he
        rw [List.isEmpty_iff] at he
        rw [he] at hmem
        simp at hmem
      rw [if_neg hne]
      exact ⟨_, rfl⟩
    rcases hsome with ⟨q, hq⟩
    have hkept : q ∈ ((List.range df.cols.length).filter
        (fun j => decide (df.cols.getD j "" ∉ excl))).filterMap
          (fun j => (dfMeans df).getD j none) :=
      List.mem_filterMap.mpr ⟨j, hkeep, hq⟩
    have hne2 : ¬ (((List.range df.cols.length).filter
        (fun j => decide (df.cols.getD j "" ∉ excl))).filterMap
          (fun j => (dfMeans df).getD j none)).isEmpty := by
      intro he
      rw [List.isEmpty_iff] at he
      rw [he] at hkept
      simp at hkept
    rw [if_neg hne2]
    rfl

theorem calculate_overall_iou_from_df_spec_witness :
    (overallIou ⟨["batch_idx", "a"], [[0, 1], [1, -1]]⟩
      ["batch_idx"]).isSome :=
  (calculate_overall_iou_from_df_spec
      ⟨["batch_idx", "a"], [[0, 1], [1, -1]]⟩ ["batch_idx"]).2
    1 (by decide) (by decide) [0, 1] (by decide) (by decide)
